import Mathlib

/-!
Verification of the `rust_combinations` library (`src/lib.rs`).

The library enumerates subsets of a sequence `v` through bitmask indices:
index `pos ∈ [1, 2^n - 1]` encodes the subset of the elements of `v` at the
positions `i < n` whose bit `i` of `pos` is set.  The Rust code works with
`u128` indices; the embedding below uses `Nat`, which agrees with `u128`
arithmetic as long as every intermediate value stays below `2^128` (this is
the case whenever `v.length ≤ 127`; the `_checked` variants at the end of
the definitions model the single place where `u128` arithmetic can fail,
namely the loop-bound shift `u_one << v.len()`).
-/

namespace Combinations

/-- Helper for `count_ones`: repeated halving with an explicit fuel
argument that only drives structural termination (any fuel at least `x`
gives the same value, see `count_ones_unfold` below). -/
def count_ones_fuel : Nat → Nat → Nat
  | _, 0 => 0
  | x, fuel + 1 => if x = 0 then 0 else x % 2 + count_ones_fuel (x / 2) fuel

/-- Embedding of `u128::count_ones`: the number of set bits of `x`
(population count), computed as the number of odd steps of repeated
halving. -/
def count_ones (x : Nat) : Nat := count_ones_fuel x x

/-- Embedding of `get_subset`: loop `i` over `0..v.len()`; whenever
`(pos >> i) & 1 == 1`, push `v[i]`.  (`v[i]?` is always `some` here since
`i` ranges over `List.range v.length`.) -/
def get_subset {T : Type} (v : List T) (pos : Nat) : List T :=
  (List.range v.length).filterMap fun i =>
    if (pos >>> i) &&& 1 = 1 then v[i]? else none

/-- Embedding of `all`: loop `pos` over `1..(1 << v.len())`, i.e. over
`[1, 2^n - 1]`, pushing `get_subset(v, pos)` for each. -/
def all {T : Type} (v : List T) : List (List T) :=
  (List.range' 1 (2 ^ v.length - 1)).map fun pos => get_subset v pos

/-- Embedding of `all_qualifying`: same loop; build the subset, push it only
when `qualifies` returns true. -/
def all_qualifying {T : Type} (v : List T) (qualifies : List T → Bool) :
    List (List T) :=
  (List.range' 1 (2 ^ v.length - 1)).filterMap fun pos =>
    let subset := get_subset v pos
    if qualifies subset then some subset else none

/-- Embedding of `all_qualifying_positions`: same loop; push the index `pos`
itself when the decoded subset qualifies. -/
def all_qualifying_positions {T : Type} (v : List T)
    (qualifies : List T → Bool) : List Nat :=
  (List.range' 1 (2 ^ v.length - 1)).filter fun pos =>
    qualifies (get_subset v pos)

/-- Embedding of `combinations`: same loop; `continue` unless
`pos.count_ones() == r`, then push the decoded subset. -/
def combinations {T : Type} (v : List T) (r : Nat) : List (List T) :=
  ((List.range' 1 (2 ^ v.length - 1)).filter fun pos =>
    count_ones pos = r).map fun pos => get_subset v pos

/-- Embedding of `combinations_positions`: same loop and population-count
filter, pushing the index instead of the subset. -/
def combinations_positions {T : Type} (v : List T) (r : Nat) : List Nat :=
  (List.range' 1 (2 ^ v.length - 1)).filter fun pos => count_ones pos = r

/-- Embedding of `combinations_qualifying_positions`: same loop;
`continue` unless the population count is `r`, then decode and push the
index when the subset qualifies.  The two nested filters mirror the two
sequential tests of the loop body. -/
def combinations_qualifying_positions {T : Type} (v : List T) (r : Nat)
    (qualifies : List T → Bool) : List Nat :=
  ((List.range' 1 (2 ^ v.length - 1)).filter fun pos =>
    count_ones pos = r).filter fun pos => qualifies (get_subset v pos)

/-- Model of the loop-bound expression `u_one << v.len()` under u128
semantics with overflow checking: a left shift of a `u128` by 128 or more
bit positions is an arithmetic overflow (a panic in the Rust build the
crate is tested with), modelled as `none`; otherwise the shift agrees with
the `Nat` value `1 <<< n`. -/
def u128_shl_one (n : Nat) : Option Nat :=
  if n < 128 then some (1 <<< n) else none

/-- Model of `get_subset` under u128 semantics: the loop body computes
`pos >> i` for every `i` in `0..v.len()`, and a `u128` right shift
overflows exactly when some `i ≥ 128` occurs, i.e. when `v.len() ≥ 129`.
For `v.len() ≤ 128` every shift amount is at most 127 and the function
agrees with `get_subset`. -/
def get_subset_checked {T : Type} (v : List T) (pos : Nat) :
    Option (List T) :=
  if v.length ≤ 128 then some (get_subset v pos) else none

/-- Model of `all` under u128 semantics: the only overflowing operation is
the loop bound `u_one << v.len()`; inside the loop `pos < 2^v.length` and
every shift amount is below `v.length < 128`. -/
def all_checked {T : Type} (v : List T) : Option (List (List T)) :=
  (u128_shl_one v.length).map fun bound =>
    (List.range' 1 (bound - 1)).map fun pos => get_subset v pos

/-- Model of `all_qualifying` under u128 semantics (see `all_checked`). -/
def all_qualifying_checked {T : Type} (v : List T)
    (qualifies : List T → Bool) : Option (List (List T)) :=
  (u128_shl_one v.length).map fun bound =>
    (List.range' 1 (bound - 1)).filterMap fun pos =>
      let subset := get_subset v pos
      if qualifies subset then some subset else none

/-- Model of `all_qualifying_positions` under u128 semantics (see
`all_checked`). -/
def all_qualifying_positions_checked {T : Type} (v : List T)
    (qualifies : List T → Bool) : Option (List Nat) :=
  (u128_shl_one v.length).map fun bound =>
    (List.range' 1 (bound - 1)).filter fun pos =>
      qualifies (get_subset v pos)

/-- Model of `combinations` under u128 semantics (see `all_checked`). -/
def combinations_checked {T : Type} (v : List T) (r : Nat) :
    Option (List (List T)) :=
  (u128_shl_one v.length).map fun bound =>
    ((List.range' 1 (bound - 1)).filter fun pos =>
      count_ones pos = r).map fun pos => get_subset v pos

/-- Model of `combinations_positions` under u128 semantics (see
`all_checked`). -/
def combinations_positions_checked {T : Type} (v : List T) (r : Nat) :
    Option (List Nat) :=
  (u128_shl_one v.length).map fun bound =>
    (List.range' 1 (bound - 1)).filter fun pos => count_ones pos = r

/-- Model of `combinations_qualifying_positions` under u128 semantics (see
`all_checked`). -/
def combinations_qualifying_positions_checked {T : Type} (v : List T)
    (r : Nat) (qualifies : List T → Bool) : Option (List Nat) :=
  (u128_shl_one v.length).map fun bound =>
    ((List.range' 1 (bound - 1)).filter fun pos =>
      count_ones pos = r).filter fun pos => qualifies (get_subset v pos)

/-- Instrumented embedding of `all_qualifying`: the same loop written as a
fold whose state also records, in order, every index at which the
`qualifies` callback is invoked.  Each loop iteration invokes the callback
exactly once, so the second component is the exact invocation log. -/
def all_qualifying_instr {T : Type} (v : List T)
    (qualifies : List T → Bool) : List (List T) × List Nat :=
  (List.range' 1 (2 ^ v.length - 1)).foldl
    (fun acc pos =>
      let subset := get_subset v pos
      (if qualifies subset then acc.1 ++ [subset] else acc.1,
       acc.2 ++ [pos]))
    ([], [])

/-- Instrumented embedding of `all_qualifying_positions`, with the same
invocation log as `all_qualifying_instr`. -/
def all_qualifying_positions_instr {T : Type} (v : List T)
    (qualifies : List T → Bool) : List Nat × List Nat :=
  (List.range' 1 (2 ^ v.length - 1)).foldl
    (fun acc pos =>
      let subset := get_subset v pos
      (if qualifies subset then acc.1 ++ [pos] else acc.1,
       acc.2 ++ [pos]))
    ([], [])

/-- The set-bit positions of `x` below `n`, as an ascending list: the
"position-set read as an ascending position list" of an index. -/
def bitPositions (n x : Nat) : List Nat :=
  (List.range n).filter fun i => x.testBit i

/-- Sample predicate (used to instantiate hyperproperty statements): tests
that a subset is non-empty by its length. -/
def pred_pos_len (l : List Nat) : Bool := decide (0 < l.length)

/-- Sample predicate: constantly true.  Agrees with `pred_pos_len` on every
non-empty list but not on `[]`. -/
def pred_true (_ : List Nat) : Bool := true

example : get_subset [1, 2, 3] 3 = [1, 2] := by decide
example : get_subset [1, 2, 3] 6 = [2, 3] := by decide
example : all [1, 2, 3] =
    [[1], [2], [1, 2], [3], [1, 3], [2, 3], [1, 2, 3]] := by decide
example : combinations [1, 2, 3] 2 = [[1, 2], [1, 3], [2, 3]] := by decide
example : combinations [1, 2, 2, 3] 3 =
    [[1, 2, 2], [1, 2, 3], [1, 2, 3], [2, 2, 3]] := by decide
example : combinations_positions [1, 2, 3, 4] 2 = [3, 5, 6, 9, 10, 12] := by
  decide
example : bitPositions 4 6 = [1, 2] := by decide
example : bitPositions 4 9 = [0, 3] := by decide
example : List.Lex (· < ·) [0, 3] [1, 2] := by decide
example : ¬ List.Lex (· < ·) [1, 2] [0, 3] := by decide

/-! ### Basic facts about `count_ones` -/

theorem count_ones_fuel_zero (f : Nat) : count_ones_fuel 0 f = 0 := by
  cases f <;> simp [count_ones_fuel]

theorem count_ones_fuel_eq :
    ∀ x : Nat, ∀ f : Nat, x ≤ f →
      count_ones_fuel x f = count_ones_fuel x x := by
  intro x
  induction x using Nat.strong_induction_on with
  | _ x ih =>
    intro f hf
    by_cases hx : x = 0
    · subst hx; simp [count_ones_fuel_zero]
    · cases x with
      | zero => exact absurd rfl hx
      | succ y =>
        cases f with
        | zero => omega
        | succ g =>
          simp only [count_ones_fuel, if_neg hx]
          have hlt : (y + 1) / 2 < y + 1 := by omega
          rw [ih ((y + 1) / 2) hlt g (by omega),
            ih ((y + 1) / 2) hlt y (by omega)]

theorem count_ones_zero : count_ones 0 = 0 := rfl

theorem count_ones_unfold (x : Nat) :
    count_ones x = x % 2 + count_ones (x / 2) := by
  by_cases hx : x = 0
  · subst hx; simp [count_ones, count_ones_fuel_zero]
  · show count_ones_fuel x x = x % 2 + count_ones_fuel (x / 2) (x / 2)
    cases x with
    | zero => exact absurd rfl hx
    | succ y =>
      simp only [count_ones_fuel, if_neg hx]
      congr 1
      exact count_ones_fuel_eq ((y + 1) / 2) y (by omega)

theorem count_ones_pos : ∀ x : Nat, x ≠ 0 → 0 < count_ones x := by
  intro x
  induction x using Nat.strong_induction_on with
  | _ x ih =>
    intro hx
    rw [count_ones_unfold]
    rcases Nat.lt_or_ge x 2 with h2 | h2
    · interval_cases x
      · exact absurd rfl hx
      · simp [count_ones_zero]
    · by_cases hm : x % 2 = 1
      · omega
      · have : 0 < count_ones (x / 2) :=
          ih (x / 2) (by omega) (by omega)
        omega

theorem count_ones_eq_countP :
    ∀ n : Nat, ∀ x : Nat, x < 2 ^ n →
      count_ones x = (List.range n).countP fun i => x.testBit i := by
  intro n
  induction n with
  | zero =>
    intro x hx
    have : x = 0 := by simpa using hx
    subst this
    simp [count_ones_zero]
  | succ n ih =>
    intro x hx
    have hp : 2 ^ (n + 1) = 2 ^ n * 2 := by rw [Nat.pow_succ]
    have hd : x / 2 < 2 ^ n := by omega
    rw [count_ones_unfold, ih (x / 2) hd, List.range_succ_eq_map,
      List.countP_cons, List.countP_map]
    have h0 : (fun i => x.testBit (Nat.succ i)) =
        fun i => (x / 2).testBit i := by
      funext i
      exact Nat.testBit_succ x i
    have h1 : ((fun i => x.testBit i) ∘ Nat.succ) =
        fun i => (x / 2).testBit i := by
      funext i
      exact Nat.testBit_succ x i
    rw [h1]
    have h2 : (if x.testBit 0 = true then 1 else 0) = x % 2 := by
      rw [Nat.testBit_zero]
      rcases Nat.mod_two_eq_zero_or_one x with h | h <;> simp [h]
    rw [h2]
    omega

theorem count_ones_le (n x : Nat) (hx : x < 2 ^ n) : count_ones x ≤ n := by
  rw [count_ones_eq_countP n x hx]
  calc (List.range n).countP (fun i => x.testBit i)
      ≤ (List.range n).length := List.countP_le_length _
    _ = n := List.length_range n

theorem count_ones_two_pow_add :
    ∀ n : Nat, ∀ y : Nat, y < 2 ^ n →
      count_ones (2 ^ n + y) = count_ones y + 1 := by
  intro n
  induction n with
  | zero =>
    intro y hy
    have : y = 0 := by simpa using hy
    subst this
    decide
  | succ n ih =>
    intro y hy
    have hp : 2 ^ (n + 1) = 2 ^ n * 2 := by rw [Nat.pow_succ]
    have e1 : (2 ^ (n + 1) + y) % 2 = y % 2 := by omega
    have e2 : (2 ^ (n + 1) + y) / 2 = 2 ^ n + y / 2 := by omega
    have hd : y / 2 < 2 ^ n := by omega
    rw [count_ones_unfold (2 ^ (n + 1) + y), e1, e2, ih (y / 2) hd,
      count_ones_unfold y]
    omega

/-! ### Basic facts about `get_subset` -/

theorem shift_and_eq_one_iff (pos i : Nat) :
    ((pos >>> i) &&& 1 = 1) ↔ pos.testBit i = true := by
  rw [Nat.testBit_to_div_mod, Nat.and_one_is_mod, Nat.shiftRight_eq_div_pow]
  simp

theorem filterMap_ite_eq_filter {α : Type} (v : List α) (pos : Nat) :
    ∀ l : List Nat,
      (l.filterMap fun i => if (pos >>> i) &&& 1 = 1 then v[i]? else none) =
        (l.filter fun i => pos.testBit i).filterMap fun i => v[i]? := by
  intro l
  induction l with
  | nil => rfl
  | cons a l ih =>
    have ih' := ih
    simp only [Nat.and_one_is_mod] at ih'
    by_cases h : pos.testBit a = true
    · have hc : (pos >>> a) &&& 1 = 1 := (shift_and_eq_one_iff pos a).mpr h
      have hm : pos >>> a % 2 = 1 := by rw [← Nat.and_one_is_mod]; exact hc
      simp [List.filterMap_cons, List.filter_cons, hm, h, ih']
    · have hc : ¬ ((pos >>> a) &&& 1 = 1) := fun hcc =>
        h ((shift_and_eq_one_iff pos a).mp hcc)
      have hm : ¬ (pos >>> a % 2 = 1) := by
        rw [← Nat.and_one_is_mod]; exact hc
      have h' : pos.testBit a = false := by simpa using h
      simp [List.filterMap_cons, List.filter_cons, hm, h', ih']

theorem get_subset_eq_filter {T : Type} (v : List T) (pos : Nat) :
    get_subset v pos =
      ((List.range v.length).filter fun i => pos.testBit i).filterMap
        fun i => v[i]? :=
  filterMap_ite_eq_filter v pos (List.range v.length)

theorem length_filterMap_getElem {α : Type} (v : List α) :
    ∀ l : List Nat, (∀ i ∈ l, i < v.length) →
      (l.filterMap fun i => v[i]?).length = l.length := by
  intro l
  induction l with
  | nil => intro _; rfl
  | cons a l ih =>
    intro h
    have ha : a < v.length := h a (List.mem_cons_self a l)
    simp only [List.filterMap_cons, List.getElem?_eq_getElem ha,
      List.length_cons]
    rw [ih fun i hi => h i (List.mem_cons_of_mem a hi)]

theorem get_subset_length_countP {T : Type} (v : List T) (pos : Nat) :
    (get_subset v pos).length =
      (List.range v.length).countP fun i => pos.testBit i := by
  rw [get_subset_eq_filter, List.countP_eq_length_filter]
  exact length_filterMap_getElem v _ fun i hi =>
    List.mem_range.mp (List.mem_filter.mp hi).1

theorem get_subset_mod {T : Type} (v : List T) (pos : Nat) :
    get_subset v pos = get_subset v (pos % 2 ^ v.length) := by
  rw [get_subset_eq_filter, get_subset_eq_filter]
  congr 1
  apply List.filter_congr
  intro i hi
  have hi' : i < v.length := List.mem_range.mp hi
  simp [Nat.testBit_mod_two_pow, hi']

theorem get_subset_length {T : Type} (v : List T) (pos : Nat) :
    (get_subset v pos).length = count_ones (pos % 2 ^ v.length) := by
  have hm : pos % 2 ^ v.length < 2 ^ v.length :=
    Nat.mod_lt _ (Nat.two_pow_pos _)
  rw [get_subset_mod, get_subset_length_countP]
  exact (count_ones_eq_countP v.length _ hm).symm

theorem get_subset_ne_nil {T : Type} (v : List T) (pos : Nat)
    (h1 : 1 ≤ pos) (h2 : pos < 2 ^ v.length) : get_subset v pos ≠ [] := by
  have hl : (get_subset v pos).length = count_ones pos := by
    rw [get_subset_length, Nat.mod_eq_of_lt h2]
  have hp : 0 < count_ones pos := count_ones_pos pos (by omega)
  intro hnil
  rw [hnil] at hl
  simp at hl
  omega

/-! ### Counting indices by population count -/

theorem countP_count_ones_range :
    ∀ n r : Nat,
      ((List.range (2 ^ n)).countP fun x => count_ones x = r) =
        n.choose r := by
  intro n
  induction n with
  | zero =>
    intro r
    have h2 : List.range (2 ^ 0) = [0] := rfl
    rw [h2]
    cases r with
    | zero => decide
    | succ s =>
      simp [List.countP_cons, count_ones_zero, Nat.choose_zero_succ]
  | succ n ih =>
    intro r
    have hp : (2 : Nat) ^ (n + 1) = 2 ^ n + 2 ^ n := by
      rw [Nat.pow_succ]; omega
    rw [hp, List.range_add, List.countP_append, List.countP_map]
    cases r with
    | zero =>
      have hz : ((List.range (2 ^ n)).countP
          ((fun x => decide (count_ones x = 0)) ∘ (fun i => 2 ^ n + i))) =
            0 := by
        rw [List.countP_eq_zero]
        intro a ha
        have hx := count_ones_two_pow_add n a (List.mem_range.mp ha)
        simp [Function.comp, hx]
      rw [hz, ih 0]
      simp
    | succ s =>
      have hs : ((List.range (2 ^ n)).countP
          ((fun x => decide (count_ones x = s + 1)) ∘
            (fun i => 2 ^ n + i))) =
          (List.range (2 ^ n)).countP fun x => count_ones x = s := by
        apply List.countP_congr
        intro x hx
        have hx' := count_ones_two_pow_add n x (List.mem_range.mp hx)
        simp [Function.comp, hx']
      rw [hs, ih (s + 1), ih s, Nat.choose_succ_succ']
      omega

theorem range_two_pow_eq_cons (n : Nat) :
    List.range (2 ^ n) = 0 :: List.range' 1 (2 ^ n - 1) := by
  rw [List.range_eq_range']
  obtain ⟨m, hm⟩ : ∃ m, 2 ^ n = m + 1 :=
    ⟨2 ^ n - 1, by have := Nat.two_pow_pos n; omega⟩
  rw [hm]
  simp [List.range'_succ]

theorem countP_count_ones_range' (n r : Nat) (hr : 1 ≤ r) :
    ((List.range' 1 (2 ^ n - 1)).countP fun x => count_ones x = r) =
      n.choose r := by
  have h1 : ((List.range (2 ^ n)).countP fun x => count_ones x = r) =
      ((List.range' 1 (2 ^ n - 1)).countP fun x => count_ones x = r) := by
    rw [range_two_pow_eq_cons, List.countP_cons]
    have h0 : ¬ (count_ones 0 = r) := by rw [count_ones_zero]; omega
    simp [h0]
  rw [← h1, countP_count_ones_range]

/-! ### Binary counting order versus position lists -/

theorem bitPositions_succ (n x : Nat) :
    bitPositions (n + 1) x =
      bitPositions n x ++ (if x.testBit n then [n] else []) := by
  unfold bitPositions
  rw [List.range_succ, List.filter_append]
  congr 1
  cases h : x.testBit n <;> simp [List.filter_cons, h]

theorem bitPositions_mod (n x : Nat) :
    bitPositions n (x % 2 ^ n) = bitPositions n x := by
  unfold bitPositions
  apply List.filter_congr
  intro i hi
  simp [Nat.testBit_mod_two_pow, List.mem_range.mp hi]

theorem mem_bitPositions_lt (n x i : Nat) (h : i ∈ bitPositions n x) :
    i < n := by
  unfold bitPositions at h
  exact List.mem_range.mp (List.mem_filter.mp h).1

theorem div_two_pow_eq_one (n x : Nat) (h1 : 2 ^ n ≤ x)
    (h2 : x < 2 ^ (n + 1)) : x / 2 ^ n = 1 := by
  have hq1 : 1 ≤ x / 2 ^ n :=
    (Nat.one_le_div_iff (Nat.two_pow_pos n)).mpr h1
  have hq2 : x / 2 ^ n < 2 := by
    rw [Nat.div_lt_iff_lt_mul (Nat.two_pow_pos n)]
    have hp : 2 ^ (n + 1) = 2 ^ n * 2 := Nat.pow_succ 2 n
    omega
  omega

theorem lt_two_pow_of_testBit_false (n x : Nat) (hx : x < 2 ^ (n + 1))
    (hb : x.testBit n = false) : x < 2 ^ n := by
  by_contra hge
  push_neg at hge
  have hdiv : x / 2 ^ n = 1 := div_two_pow_eq_one n x hge hx
  rw [Nat.testBit_to_div_mod, hdiv] at hb
  simp at hb

theorem decompose_high_bit (n x : Nat) (h1 : 2 ^ n ≤ x)
    (h2 : x < 2 ^ (n + 1)) : x = 2 ^ n + x % 2 ^ n := by
  have hq : x / 2 ^ n = 1 := div_two_pow_eq_one n x h1 h2
  have hdm := Nat.div_add_mod x (2 ^ n)
  rw [hq] at hdm
  omega

theorem lex_desc_of_lt :
    ∀ n a b : Nat, a < 2 ^ n → b < 2 ^ n → a < b →
      List.Lex (· < ·) (bitPositions n a).reverse
        (bitPositions n b).reverse := by
  intro n
  induction n with
  | zero =>
    intro a b ha hb hab
    have ha0 : a = 0 := by simpa using ha
    have hb0 : b = 0 := by simpa using hb
    omega
  | succ n ih =>
    intro a b ha hb hab
    rw [bitPositions_succ, bitPositions_succ, List.reverse_append,
      List.reverse_append]
    cases hta : a.testBit n with
    | false =>
      cases htb : b.testBit n with
      | false =>
        have ha' : a < 2 ^ n := lt_two_pow_of_testBit_false n a ha hta
        have hb' : b < 2 ^ n := lt_two_pow_of_testBit_false n b hb htb
        simpa using ih a b ha' hb' hab
      | true =>
        simp only [if_true, if_false, List.reverse_cons, List.reverse_nil,
          List.nil_append, List.cons_append]
        cases hcase : (bitPositions n a).reverse with
        | nil => exact List.Lex.nil
        | cons h t =>
          have hh : h ∈ (bitPositions n a).reverse := by
            rw [hcase]; exact List.mem_cons_self h t
          have hh' : h < n :=
            mem_bitPositions_lt n a h (List.mem_reverse.mp hh)
          exact List.Lex.rel hh'
    | true =>
      cases htb : b.testBit n with
      | false =>
        have hb' : b < 2 ^ n := lt_two_pow_of_testBit_false n b hb htb
        have ha' : 2 ^ n ≤ a := Nat.testBit_implies_ge hta
        omega
      | true =>
        have ha2 : 2 ^ n ≤ a := Nat.testBit_implies_ge hta
        have hb2 : 2 ^ n ≤ b := Nat.testBit_implies_ge htb
        have hma : a % 2 ^ n < 2 ^ n := Nat.mod_lt _ (Nat.two_pow_pos n)
        have hmb : b % 2 ^ n < 2 ^ n := Nat.mod_lt _ (Nat.two_pow_pos n)
        have hda : a = 2 ^ n + a % 2 ^ n := decompose_high_bit n a ha2 ha
        have hdb : b = 2 ^ n + b % 2 ^ n := decompose_high_bit n b hb2 hb
        have hab' : a % 2 ^ n < b % 2 ^ n := by omega
        have hlex := ih (a % 2 ^ n) (b % 2 ^ n) hma hmb hab'
        rw [bitPositions_mod, bitPositions_mod] at hlex
        simp only [if_true, List.reverse_cons, List.reverse_nil,
          List.nil_append, List.cons_append]
        exact List.Lex.cons hlex

/-! ### Unfolding the instrumented loops -/

theorem foldl_instr_subsets {T : Type} (v : List T) (q : List T → Bool) :
    ∀ l : List Nat, ∀ acc : List (List T), ∀ log : List Nat,
      (l.foldl (fun acc pos =>
        let subset := get_subset v pos
        (if q subset then acc.1 ++ [subset] else acc.1, acc.2 ++ [pos]))
        (acc, log)) =
      (acc ++ l.filterMap fun pos =>
          let subset := get_subset v pos
          if q subset then some subset else none,
        log ++ l) := by
  intro l
  induction l with
  | nil => intro acc log; simp
  | cons a l ih =>
    intro acc log
    rw [List.foldl_cons]
    by_cases hq : q (get_subset v a) = true
    · simp only [hq, if_true, ih, List.filterMap_cons]
      simp [hq]
    · have hq' : q (get_subset v a) = false := by simpa using hq
      simp only [hq', ih, List.filterMap_cons]
      simp [hq']

theorem foldl_instr_positions {T : Type} (v : List T) (q : List T → Bool) :
    ∀ l : List Nat, ∀ acc log : List Nat,
      (l.foldl (fun acc pos =>
        let subset := get_subset v pos
        (if q subset then acc.1 ++ [pos] else acc.1, acc.2 ++ [pos]))
        (acc, log)) =
      (acc ++ l.filter fun pos => q (get_subset v pos), log ++ l) := by
  intro l
  induction l with
  | nil => intro acc log; simp
  | cons a l ih =>
    intro acc log
    rw [List.foldl_cons]
    by_cases hq : q (get_subset v a) = true
    · simp only [hq, if_true, ih, List.filter_cons]
      simp [hq]
    · have hq' : q (get_subset v a) = false := by simpa using hq
      simp only [hq', ih, List.filter_cons]
      simp [hq']

/-! ### Shared facts about the enumerations -/

theorem all_length {T : Type} (v : List T) :
    (all v).length = 2 ^ v.length - 1 := by
  unfold all
  rw [List.length_map, List.length_range']

theorem all_getElem {T : Type} (v : List T) (k : Nat)
    (hk : k < 2 ^ v.length - 1) :
    (all v)[k]? = some (get_subset v (k + 1)) := by
  unfold all
  rw [List.getElem?_map, List.getElem?_range' 1 1 hk]
  have hk1 : 1 + 1 * k = k + 1 := by omega
  simp [hk1, Nat.add_comm]

theorem combinations_eq_map {T : Type} (v : List T) (r : Nat) :
    combinations v r =
      ((combinations_positions v r).map fun pos => get_subset v pos) := rfl

theorem cqp_decode {T : Type} (v : List T) (r : Nat) (P : List T → Bool) :
    ((combinations_qualifying_positions v r P).map
      fun pos => get_subset v pos) = (combinations v r).filter P := by
  unfold combinations_qualifying_positions combinations
  rw [List.filter_map]
  rfl

theorem filterMap_congr_aux {α β : Type} (f g : α → Option β) :
    ∀ l : List α, (∀ a ∈ l, f a = g a) → l.filterMap f = l.filterMap g := by
  intro l
  induction l with
  | nil => intro _; rfl
  | cons a l ih =>
    intro h
    rw [List.filterMap_cons, List.filterMap_cons,
      h a (List.mem_cons_self a l),
      ih fun x hx => h x (List.mem_cons_of_mem a hx)]

theorem u128_shl_one_lt (n : Nat) (h : n < 128) :
    u128_shl_one n = some (2 ^ n) := by
  unfold u128_shl_one
  rw [if_pos h, Nat.shiftLeft_eq, Nat.one_mul]

/-! ### The claims -/

/-- C1: for every input `v` of length `n`, `all v` returns exactly
`2 ^ n - 1` subsets, in strictly increasing index order: the `(k+1)`-th
result (0-based position `k`) is the decoding of index `k + 1`; for
`n = 0` the result is empty. -/
theorem all_full_enumeration {T : Type} (v : List T) :
    (all v).length = 2 ^ v.length - 1 ∧
    (∀ k : Nat, k < 2 ^ v.length - 1 →
      (all v)[k]? = some (get_subset v (k + 1))) ∧
    (v.length = 0 → all v = []) := by
  refine ⟨all_length v, fun k hk => all_getElem v k hk, fun h0 => ?_⟩
  unfold all
  rw [h0]
  rfl

/-- Witness for C1 at `v = [1, 2, 3]` (third entry decodes index 3) and at
`v = []`. -/
theorem all_full_enumeration_witness :
    (all [1, 2, 3]).length = 2 ^ 3 - 1 ∧
    (all [1, 2, 3])[2]? = some (get_subset [1, 2, 3] 3) ∧
    all ([] : List Nat) = [] :=
  ⟨(all_full_enumeration [1, 2, 3]).1,
   (all_full_enumeration [1, 2, 3]).2.1 2 (by decide),
   (all_full_enumeration ([] : List Nat)).2.2 rfl⟩

/-- C2: `get_subset v pos` returns the elements of `v` at exactly the
positions `i < v.length` whose bit `i` of `pos` is set, in ascending
position order; bit positions at or beyond `v.length` are ignored, so the
result equals that of the index masked by `2 ^ v.length`, and the length
equals the population count of the masked index. -/
theorem get_subset_spec {T : Type} (v : List T) (pos : Nat) :
    get_subset v pos =
      (((List.range v.length).filter fun i => pos.testBit i).filterMap
        fun i => v[i]?) ∧
    get_subset v pos = get_subset v (pos % 2 ^ v.length) ∧
    (get_subset v pos).length = count_ones (pos % 2 ^ v.length) :=
  ⟨get_subset_eq_filter v pos, get_subset_mod v pos, get_subset_length v pos⟩

/-- C3 as stated fails at `r = 0`: with `v = []` we have `n = 0` and
`0 ≤ r ≤ n`, yet `combinations` returns 0 subsets while `C(0, 0) = 1`
(no index in the visited range has population count 0). -/
theorem combinations_choose_counterexample :
    (combinations ([] : List Nat) 0).length = 0 ∧
    (combinations_positions ([] : List Nat) 0).length = 0 ∧
    Nat.choose 0 0 = 1 := by
  refine ⟨rfl, rfl, rfl⟩

/-- C3 (amended): for every `r ≥ 1` (rather than `r ≥ 0`),
`combinations v r` returns exactly `C(n, r)` subsets, each of length
exactly `r`, and `combinations_positions v r` returns exactly `C(n, r)`
indices.  (For `r = 0` both results are empty although `C(n, 0) = 1`, see
the counterexample.) -/
theorem combinations_count {T : Type} (v : List T) (r : Nat)
    (hr : 1 ≤ r) :
    (combinations v r).length = v.length.choose r ∧
    (combinations_positions v r).length = v.length.choose r ∧
    ∀ s ∈ combinations v r, s.length = r := by
  have hlen : (combinations_positions v r).length = v.length.choose r := by
    unfold combinations_positions
    rw [← List.countP_eq_length_filter]
    exact countP_count_ones_range' v.length r hr
  refine ⟨?_, hlen, ?_⟩
  · unfold combinations
    rw [List.length_map, ← List.countP_eq_length_filter]
    exact countP_count_ones_range' v.length r hr
  · intro s hs
    unfold combinations at hs
    rw [List.mem_map] at hs
    obtain ⟨pos, hpos, rfl⟩ := hs
    rw [List.mem_filter] at hpos
    obtain ⟨hmem, hcnt⟩ := hpos
    rw [List.mem_range'_1] at hmem
    have h2p := Nat.two_pow_pos v.length
    have h2 : pos < 2 ^ v.length := by omega
    have hl := get_subset_length v pos
    rw [Nat.mod_eq_of_lt h2] at hl
    rw [hl]
    exact of_decide_eq_true hcnt

/-- Witness for C3 (amended) at `v = [1, 2, 3]`, `r = 2`:
`C(3, 2) = 3` subsets, each of length 2. -/
theorem combinations_count_witness :
    1 ≤ 2 ∧
    (combinations [1, 2, 3] 2).length = Nat.choose 3 2 ∧
    (combinations_positions [1, 2, 3] 2).length = Nat.choose 3 2 ∧
    ∀ s ∈ combinations [1, 2, 3] 2, s.length = 2 :=
  ⟨by decide,
   (combinations_count [1, 2, 3] 2 (by decide)).1,
   (combinations_count [1, 2, 3] 2 (by decide)).2.1,
   (combinations_count [1, 2, 3] 2 (by decide)).2.2⟩

/-- C4: the list returned by `all_qualifying_positions` is strictly
increasing, and each returned position `p` is exactly the 1-based ordinal
of its subset in the full enumeration: `(all v)[p - 1] = get_subset v p`. -/
theorem all_qualifying_positions_spec {T : Type} (v : List T)
    (qualifies : List T → Bool) :
    List.Pairwise (· < ·) (all_qualifying_positions v qualifies) ∧
    ∀ p ∈ all_qualifying_positions v qualifies,
      (all v)[p - 1]? = some (get_subset v p) := by
  constructor
  · unfold all_qualifying_positions
    exact (List.pairwise_lt_range' 1 (2 ^ v.length - 1)).filter _
  · intro p hp
    unfold all_qualifying_positions at hp
    have hmem := (List.mem_filter.mp hp).1
    rw [List.mem_range'_1] at hmem
    have hk : p - 1 < 2 ^ v.length - 1 := by omega
    rw [all_getElem v (p - 1) hk]
    have hp1 : p - 1 + 1 = p := by omega
    rw [hp1]

/-- Witness for C4 at `v = [1, 2, 3]` with predicate `sum < 5`, whose
qualifying position 3 indeed locates `[1, 2]` in `all v`. -/
theorem all_qualifying_positions_spec_witness :
    List.Pairwise (· < ·)
      (all_qualifying_positions [1, 2, 3] fun l => decide (l.sum < 5)) ∧
    (all [1, 2, 3])[3 - 1]? = some (get_subset [1, 2, 3] 3) :=
  ⟨(all_qualifying_positions_spec [1, 2, 3]
      fun l => decide (l.sum < 5)).1,
   (all_qualifying_positions_spec [1, 2, 3]
      fun l => decide (l.sum < 5)).2 3 (by decide)⟩

/-- C5: decoding the elements of `combinations_qualifying_positions v r P`
gives exactly `combinations v r` filtered by `P`, entry by entry; in
particular the two lists have equal length. -/
theorem combinations_qualifying_positions_spec {T : Type} (v : List T)
    (r : Nat) (P : List T → Bool) :
    ((combinations_qualifying_positions v r P).map
      fun pos => get_subset v pos) = (combinations v r).filter P ∧
    (combinations_qualifying_positions v r P).length =
      ((combinations v r).filter P).length ∧
    ∀ k : Nat,
      ((combinations_qualifying_positions v r P)[k]?).map
        (fun pos => get_subset v pos) =
        ((combinations v r).filter P)[k]? := by
  refine ⟨cqp_decode v r P, ?_, ?_⟩
  · rw [← cqp_decode v r P, List.length_map]
  · intro k
    rw [← cqp_decode v r P, List.getElem?_map]

/-- C6's lexicographic part fails at `v = [1, 2, 3, 4]`, `r = 2`: the
results come from the consecutive indices 6 and then 9, whose ascending
position lists are `[1, 2]` and `[0, 3]`; but `[1, 2]` does not precede
`[0, 3]` in lexicographic order (rather `[0, 3] < [1, 2]`), so index order
is not lexicographic order on ascending position lists. -/
theorem combinations_lex_counterexample :
    combinations_positions [1, 2, 3, 4] 2 = [3, 5, 6, 9, 10, 12] ∧
    bitPositions 4 6 = [1, 2] ∧
    bitPositions 4 9 = [0, 3] ∧
    ¬ List.Lex (· < ·) [1, 2] [0, 3] ∧
    List.Lex (· < ·) [0, 3] [1, 2] := by
  refine ⟨by decide, by decide, by decide, by decide, by decide⟩

/-- C6 (amended): consecutive results of `combinations v r` come from
strictly increasing indices, and this index order coincides with the
colexicographic order on the selected position-sets — equivalently, with
lexicographic order on the position lists read in descending order (not in
ascending order as stated; see the counterexample). -/
theorem combinations_order_spec {T : Type} (v : List T) (r : Nat) :
    combinations v r =
      ((combinations_positions v r).map fun pos => get_subset v pos) ∧
    List.Pairwise (· < ·) (combinations_positions v r) ∧
    List.Pairwise
      (fun a b => List.Lex (· < ·) (bitPositions v.length a).reverse
        (bitPositions v.length b).reverse)
      (combinations_positions v r) := by
  have hpw : List.Pairwise (· < ·) (combinations_positions v r) := by
    unfold combinations_positions
    exact (List.pairwise_lt_range' 1 (2 ^ v.length - 1)).filter _
  refine ⟨combinations_eq_map v r, hpw, ?_⟩
  refine hpw.imp_of_mem ?_
  intro a b ha hb hab
  have ha' := (List.mem_filter.mp ha).1
  rw [List.mem_range'_1] at ha'
  have hb' := (List.mem_filter.mp hb).1
  rw [List.mem_range'_1] at hb'
  have h2p := Nat.two_pow_pos v.length
  exact lex_desc_of_lt v.length a b (by omega) (by omega) hab

/-- C7: `combinations` and `combinations_positions` return empty results,
with no failure, when `r = 0` or `r > v.length`. -/
theorem combinations_degenerate {T : Type} (v : List T) (r : Nat)
    (h : r = 0 ∨ v.length < r) :
    combinations v r = [] ∧ combinations_positions v r = [] := by
  have hp : combinations_positions v r = [] := by
    unfold combinations_positions
    rw [List.filter_eq_nil_iff]
    intro a ha
    rw [List.mem_range'_1] at ha
    have h2p := Nat.two_pow_pos v.length
    have hlt : a < 2 ^ v.length := by omega
    have hle : count_ones a ≤ v.length := count_ones_le v.length a hlt
    have hpos : 0 < count_ones a := count_ones_pos a (by omega)
    simp only [decide_eq_true_eq]
    rcases h with h | h <;> omega
  constructor
  · rw [combinations_eq_map, hp]
    rfl
  · exact hp

/-- Witness for C7 at `v = [1, 2, 3]`, for `r = 0` and for `r = 4 > 3`. -/
theorem combinations_degenerate_witness :
    (combinations [1, 2, 3] 0 = [] ∧
      combinations_positions [1, 2, 3] 0 = []) ∧
    (combinations [1, 2, 3] 4 = [] ∧
      combinations_positions [1, 2, 3] 4 = []) :=
  ⟨combinations_degenerate [1, 2, 3] 0 (Or.inl rfl),
   combinations_degenerate [1, 2, 3] 4 (Or.inr (by decide))⟩

/-- C8 as stated fails at sequence length exactly 128, which the claimed
domain includes: the loop bound `u_one << v.len()` shifts a `u128` by 128
bit positions, an arithmetic overflow, so the five enumeration operations
do not return normally on a 128-element input. -/
theorem length128_overflow_counterexample :
    (List.replicate 128 (0 : Nat)).length = 128 ∧
    all_checked (List.replicate 128 (0 : Nat)) = none ∧
    combinations_checked (List.replicate 128 (0 : Nat)) 1 = none := by
  refine ⟨by simp, ?_, ?_⟩
  · unfold all_checked u128_shl_one
    rw [List.length_replicate, if_neg (by omega)]
    rfl
  · unfold combinations_checked u128_shl_one
    rw [List.length_replicate, if_neg (by omega)]
    rfl

/-- C8 (amended): `get_subset` returns normally for every input of length
at most 128, and the five enumeration operations return normally for every
input of length at most 127; at length 128 the loop-bound shift overflows
(see the counterexample). -/
theorem operations_total {T : Type} (v w : List T) (r pos : Nat)
    (qualifies : List T → Bool) (h : v.length < 128)
    (hw : w.length ≤ 128) :
    get_subset_checked w pos = some (get_subset w pos) ∧
    all_checked v = some (all v) ∧
    all_qualifying_checked v qualifies =
      some (all_qualifying v qualifies) ∧
    all_qualifying_positions_checked v qualifies =
      some (all_qualifying_positions v qualifies) ∧
    combinations_checked v r = some (combinations v r) ∧
    combinations_positions_checked v r =
      some (combinations_positions v r) ∧
    combinations_qualifying_positions_checked v r qualifies =
      some (combinations_qualifying_positions v r qualifies) := by
  have hb := u128_shl_one_lt v.length h
  refine ⟨?_, ?_, ?_, ?_, ?_, ?_, ?_⟩
  · unfold get_subset_checked
    rw [if_pos hw]
  · unfold all_checked
    rw [hb]
    rfl
  · unfold all_qualifying_checked
    rw [hb]
    rfl
  · unfold all_qualifying_positions_checked
    rw [hb]
    rfl
  · unfold combinations_checked
    rw [hb]
    rfl
  · unfold combinations_positions_checked
    rw [hb]
    rfl
  · unfold combinations_qualifying_positions_checked
    rw [hb]
    rfl

/-- Witness for C8 (amended) at `v = [1, 2, 3]` and at a 128-element `w`,
on which `get_subset` still returns normally. -/
theorem operations_total_witness :
    get_subset_checked (List.replicate 128 (5 : Nat)) 1 =
      some (get_subset (List.replicate 128 (5 : Nat)) 1) ∧
    all_checked [1, 2, 3] = some (all [1, 2, 3]) ∧
    all_qualifying_checked [1, 2, 3] pred_true =
      some (all_qualifying [1, 2, 3] pred_true) ∧
    all_qualifying_positions_checked [1, 2, 3] pred_true =
      some (all_qualifying_positions [1, 2, 3] pred_true) ∧
    combinations_checked [1, 2, 3] 2 = some (combinations [1, 2, 3] 2) ∧
    combinations_positions_checked [1, 2, 3] 2 =
      some (combinations_positions [1, 2, 3] 2) ∧
    combinations_qualifying_positions_checked [1, 2, 3] 2 pred_true =
      some (combinations_qualifying_positions [1, 2, 3] 2 pred_true) :=
  operations_total [1, 2, 3] (List.replicate 128 (5 : Nat)) 2 1 pred_true
    (by decide) (by simp)

/-- C9: in `all_qualifying` and `all_qualifying_positions` the predicate is
invoked exactly once per candidate index: the invocation log of the
instrumented loop is exactly the candidate index list `1, …, 2^n - 1`, of
length `2^n - 1`, and the instrumented loop computes the same result. -/
theorem predicate_call_count {T : Type} (v : List T)
    (qualifies : List T → Bool) :
    (all_qualifying_instr v qualifies).2 =
      List.range' 1 (2 ^ v.length - 1) ∧
    (all_qualifying_instr v qualifies).2.length = 2 ^ v.length - 1 ∧
    (all_qualifying_instr v qualifies).1 = all_qualifying v qualifies ∧
    (all_qualifying_positions_instr v qualifies).2 =
      List.range' 1 (2 ^ v.length - 1) ∧
    (all_qualifying_positions_instr v qualifies).2.length =
      2 ^ v.length - 1 ∧
    (all_qualifying_positions_instr v qualifies).1 =
      all_qualifying_positions v qualifies := by
  have e1 : all_qualifying_instr v qualifies =
      (all_qualifying v qualifies, List.range' 1 (2 ^ v.length - 1)) := by
    unfold all_qualifying_instr all_qualifying
    rw [foldl_instr_subsets v qualifies (List.range' 1 (2 ^ v.length - 1))
      [] []]
    simp
  have e2 : all_qualifying_positions_instr v qualifies =
      (all_qualifying_positions v qualifies,
        List.range' 1 (2 ^ v.length - 1)) := by
    unfold all_qualifying_positions_instr all_qualifying_positions
    rw [foldl_instr_positions v qualifies
      (List.range' 1 (2 ^ v.length - 1)) [] []]
    simp
  rw [e1, e2]
  exact ⟨rfl, List.length_range' 1 1 _, rfl, rfl,
    List.length_range' 1 1 _, rfl⟩

/-- C10: the predicate only ever sees non-empty subsets — two predicates
that agree on every non-empty list produce identical results in
`all_qualifying`, `all_qualifying_positions`, and
`combinations_qualifying_positions` for every `r`. -/
theorem predicate_nonempty_only {T : Type} (v : List T)
    (P Q : List T → Bool) (h : ∀ l : List T, l ≠ [] → P l = Q l) :
    all_qualifying v P = all_qualifying v Q ∧
    all_qualifying_positions v P = all_qualifying_positions v Q ∧
    ∀ r : Nat, combinations_qualifying_positions v r P =
      combinations_qualifying_positions v r Q := by
  have key : ∀ pos ∈ List.range' 1 (2 ^ v.length - 1),
      P (get_subset v pos) = Q (get_subset v pos) := by
    intro pos hpos
    rw [List.mem_range'_1] at hpos
    have h2p := Nat.two_pow_pos v.length
    exact h _ (get_subset_ne_nil v pos hpos.1 (by omega))
  refine ⟨?_, ?_, ?_⟩
  · unfold all_qualifying
    apply filterMap_congr_aux
    intro pos hpos
    simp only [key pos hpos]
  · unfold all_qualifying_positions
    apply List.filter_congr
    intro pos hpos
    exact key pos hpos
  · intro r
    unfold combinations_qualifying_positions
    apply List.filter_congr
    intro pos hpos
    exact key pos (List.mem_filter.mp hpos).1

/-- Witness for C10 at `v = [10, 20]` with a non-emptiness test versus the
constantly-true predicate (they agree on every non-empty list). -/
theorem predicate_nonempty_only_witness :
    all_qualifying [10, 20] pred_pos_len =
      all_qualifying [10, 20] pred_true ∧
    all_qualifying_positions [10, 20] pred_pos_len =
      all_qualifying_positions [10, 20] pred_true ∧
    ∀ r : Nat, combinations_qualifying_positions [10, 20] r pred_pos_len =
      combinations_qualifying_positions [10, 20] r pred_true :=
  predicate_nonempty_only [10, 20] pred_pos_len pred_true fun l hl => by
    cases l with
    | nil => exact absurd rfl hl
    | cons a t => simp [pred_pos_len, pred_true]

end Combinations
